import Mathlib

/-!
Verification of the synoptic_core repository's two engines against its
natural-language specification.

The development shallowly embeds, in Lean:

* `CoreEngine` — the forward-chaining inference engine of
  `src/core_engine/inference_engine.py` (class
  `ForwardChainingInferenceEngine`): facts are a `Finset String`,
  production rules are antecedent lists with a single consequent, and the
  `while True` loop of `run` is modelled with explicit fuel, together with
  a theorem showing the fuel bound is never reached (so the model computes
  the loop's true fixpoint).

* `SynopticCore` — the rule-matching engine of
  `src/synoptic_core/core/rule_engine.py` with its data model
  (`src/synoptic_core/models/rule.py`, `logic_statement.py`), including an
  executable model of the Python `re` subset the rules use (character
  classes `\w` `\s` `\d` `.`, literals, `+` `*` `?`, capturing and
  non-capturing groups, alternation), with Python's leftmost /
  greedy-with-backtracking / non-overlapping `finditer` semantics under
  `re.IGNORECASE`, numbered capture groups, and preference order matching
  the backtracking order of the Python engine.

Confidence values (`float` in Python) are modelled as rationals; every
property proved here is an order/bounds/equality fact at values
(multiples of 0.05) on which Python binary floats are exact.
-/

namespace CoreEngine

/-- Production rule of the forward-chaining engine
(`inference_engine.py`, dataclass `Rule`): all `antecedents` must hold
for the `consequent` to be asserted. -/
structure Rule where
  antecedents : List String
  consequent : String
deriving DecidableEq, Repr

/-- Result of one pass of the `for rule in self.rules` loop: the fact and
inferred sets after the pass, the `applied` flag, and whether the pass
returned early because the goal was just derived. -/
structure PassResult where
  facts : Finset String
  inferred : Finset String
  applied : Bool
  stopped : Bool
deriving DecidableEq

/-- Python truthiness test `if goal and rule.consequent == goal`: the
early-exit check fires only when `goal` is a non-empty string equal to
the just-derived consequent. -/
def goalHit : Option String → String → Bool
  | none, _ => false
  | some g, c => decide (g ≠ "") && decide (c = g)

/-- One pass over the rule list (`for rule in self.rules` in `run`).
The fact set is threaded through the pass: a consequent added by an
earlier rule is visible to later rules of the same pass.  A rule whose
consequent is already known is skipped; a rule whose antecedents all hold
asserts its consequent into `facts` and `inferred` and sets `applied`;
if the goal-hit test fires on the just-derived consequent the pass stops
immediately. -/
def onePass (hit : String → Bool) : List Rule → Finset String → Finset String → Bool → PassResult
  | [], facts, inferred, applied => ⟨facts, inferred, applied, false⟩
  | r :: rest, facts, inferred, applied =>
    if r.consequent ∈ facts then
      onePass hit rest facts inferred applied
    else if r.antecedents.all (fun a => decide (a ∈ facts)) then
      if hit r.consequent then
        ⟨insert r.consequent facts, insert r.consequent inferred, true, true⟩
      else
        onePass hit rest (insert r.consequent facts) (insert r.consequent inferred) true
    else
      onePass hit rest facts inferred applied

/-- Result of the whole `while True` loop: final fact and inferred sets,
whether the loop stopped via the goal early-exit, the number of passes
executed, and whether the fuel ran out (`runLoopF_fuel_enough` proves the
fuel bound used by `run` is never reached). -/
structure RunResult where
  facts : Finset String
  inferred : Finset String
  stopped : Bool
  passes : Nat
  fuelOut : Bool
deriving DecidableEq

/-- The `while True` loop of `run`, with explicit fuel.  Each iteration
runs one pass; the loop exits when the goal early-exit fired or when a
full pass applied no rule. -/
def runLoopF (hit : String → Bool) (rules : List Rule) : Nat → Finset String → Finset String → RunResult
  | 0, facts, inferred => ⟨facts, inferred, false, 0, true⟩
  | fuel + 1, facts, inferred =>
    let p := onePass hit rules facts inferred false
    if p.stopped then ⟨p.facts, p.inferred, true, 1, false⟩
    else if p.applied then
      let r := runLoopF hit rules fuel p.facts p.inferred
      ⟨r.facts, r.inferred, r.stopped, r.passes + 1, r.fuelOut⟩
    else ⟨p.facts, p.inferred, false, 1, false⟩

/-- The set of consequents of a rule list; facts only ever grow, and only
consequents can be added, so this bounds the loop. -/
def consequentsOf (rules : List Rule) : Finset String :=
  (rules.map Rule.consequent).toFinset

/-- Fuel sufficient for the loop to reach its fixpoint (proved in
`runLoopF_fuel_enough`). -/
def runFuel (rules : List Rule) : Nat := (consequentsOf rules).card + 1

/-- Model of `ForwardChainingInferenceEngine.run`, returning
`(reached, facts, inferred)`.  `reached` is `True` on the goal early-exit;
otherwise the Python `return goal in self.facts if goal else True` is
modelled with the same truthiness: a `None` or empty-string goal yields
`True`, a non-empty goal yields its membership in the final fact set. -/
def run (rules : List Rule) (initial_facts : Finset String) (goal : Option String) :
    Bool × Finset String × Finset String :=
  let r := runLoopF (goalHit goal) rules (runFuel rules) initial_facts ∅
  let reached :=
    if r.stopped then true
    else
      match goal with
      | none => true
      | some g => if g = "" then true else decide (g ∈ r.facts)
  (reached, r.facts, r.inferred)

/-- Number of passes over the rule list that `run` executes. -/
def runPassCount (rules : List Rule) (initial_facts : Finset String) (goal : Option String) : Nat :=
  (runLoopF (goalHit goal) rules (runFuel rules) initial_facts ∅).passes

/-- Whether the fuel of the loop model ran out (always `false`; see
`runLoopF_fuel_enough`). -/
def runFuelOut (rules : List Rule) (initial_facts : Finset String) (goal : Option String) : Bool :=
  (runLoopF (goalHit goal) rules (runFuel rules) initial_facts ∅).fuelOut

/-- The fact/inferred state at the start of pass `k + 1` of the loop:
`k` full passes iterated from the given state.  Used to address an
arbitrary moment of a run — the run is in pass `k + 1` exactly when each
of the first `k` passes applied a rule without stopping. -/
def passState (hit : String → Bool) (rules : List Rule) :
    Nat → Finset String → Finset String → Finset String × Finset String
  | 0, facts, inferred => (facts, inferred)
  | k + 1, facts, inferred =>
    let p := onePass hit rules facts inferred false
    passState hit rules k p.facts p.inferred

end CoreEngine

namespace SynopticCore

/-! ### Model of the Python `re` subset used by the rules

The matching engine calls `re.finditer(rule.pattern, text, re.IGNORECASE)`.
The patterns appearing in the rule set use character classes `\w` `\s`
`\d` and `.`, literal characters, the quantifiers `+` `*` `?`, capturing
groups, non-capturing groups `(?:...)` and alternation `|`.  The model
below implements exactly this subset with Python's semantics: a scan for
the leftmost match position, backtracking with leftmost-alternative /
longest-repetition preference at each position, non-overlapping
continuation after each match, and case-insensitive literal comparison. -/

/-- Character classes of the regex subset: `\w`, `\s`, `\d` and `.`. -/
inductive CharCls where
  | word
  | space
  | digit
  | any
deriving DecidableEq, Repr

/-- Which characters a class matches (ASCII, as in the engine's inputs):
`\w` is alphanumeric or underscore, `\s` is whitespace, `\d` digits, and
`.` everything except a newline. -/
def clsMatch : CharCls → Char → Bool
  | .word, c => c.isAlphanum || c == '_'
  | .space, c => c == ' ' || c == '\t' || c == '\n' || c == '\r' || c == '\x0b' || c == '\x0c'
  | .digit, c => c.isDigit
  | .any, c => c != '\n'

/-- Abstract syntax of the regex subset.  `+` and `?` are desugared at
parse time into `seq r (star r)` and `alt r eps`. -/
inductive Regex where
  | eps
  | ch (c : Char)
  | cls (k : CharCls)
  | seq (a b : Regex)
  | alt (a b : Regex)
  | star (a : Regex)
  | group (i : Nat) (a : Regex)
deriving DecidableEq, Repr

/-- Capture environment: group index to captured character run (the last
capture of the group wins, as in Python). -/
abbrev Caps := List (Nat × List Char)

/-- Record a capture for group `i` (overwriting a previous one). -/
def setCap : Caps → Nat → List Char → Caps
  | [], i, v => [(i, v)]
  | (j, w) :: rest, i, v => if j = i then (i, v) :: rest else (j, w) :: setCap rest i v

/-- Look up the capture of group `i`. -/
def getCap : Caps → Nat → Option (List Char)
  | [], _ => none
  | (j, w) :: rest, i => if j = i then some w else getCap rest i

/-- Case-insensitive character comparison (`re.IGNORECASE`). -/
def lowerEq (a b : Char) : Bool := a.toLower == b.toLower

/-- Backtracking matcher.  `mrun fuel r s caps` returns every way `r` can
match a prefix of `s`, as `(remaining input, captures)` pairs, in the
preference order of the Python engine: alternatives left first,
repetitions longest first.  The head of the list is the match Python
selects.  `fuel` bounds the recursion depth; callers pass enough fuel
(the repetition case only recurses after consuming at least one
character, so input length bounds the unrolling). -/
def mrun : Nat → Regex → List Char → Caps → List (List Char × Caps)
  | 0, _, _, _ => []
  | _ + 1, .eps, s, caps => [(s, caps)]
  | _ + 1, .ch c, s, caps =>
    match s with
    | [] => []
    | x :: xs => if lowerEq x c then [(xs, caps)] else []
  | _ + 1, .cls k, s, caps =>
    match s with
    | [] => []
    | x :: xs => if clsMatch k x then [(xs, caps)] else []
  | f + 1, .seq a b, s, caps => (mrun f a s caps).flatMap (fun p => mrun f b p.1 p.2)
  | f + 1, .alt a b, s, caps => mrun f a s caps ++ mrun f b s caps
  | f + 1, .star a, s, caps =>
    ((mrun f a s caps).flatMap (fun p =>
      if p.1.length == s.length then [] else mrun f (.star a) p.1 p.2)) ++ [(s, caps)]
  | f + 1, .group i a, s, caps =>
    (mrun f a s caps).map (fun p => (p.1, setCap p.2 i (s.take (s.length - p.1.length))))

/-- Structural size of a regex, used to choose sufficient fuel. -/
def rsize : Regex → Nat
  | .eps => 1
  | .ch _ => 1
  | .cls _ => 1
  | .seq a b => rsize a + rsize b + 1
  | .alt a b => rsize a + rsize b + 1
  | .star a => rsize a + 1
  | .group _ a => rsize a + 1

/-- Fuel sufficient for `mrun` on input `s`: the matcher descends
structurally except at repetitions, which consume at least one character
per unrolling. -/
def mfuel (r : Regex) (s : List Char) : Nat := (rsize r + 2) * (s.length + 2)

/-- One match as Python's `re.Match` exposes it to
`_create_statement_from_match`: the full matched text `match.group(0)`,
the tuple `match.groups()` (with `none` for a group that did not
participate), and `match.start()`. -/
structure ReMatch where
  fullText : String
  groups : List (Option String)
  startPos : Nat
deriving DecidableEq, Repr

/-- The scan loop of `re.finditer`: try each start position from left to
right; on a match, emit it and continue at its end (one past it for an
empty match).  Returns `(start, length, captures)` triples. -/
def findIterAux (re : Regex) (cs : List Char) : Nat → Nat → List (Nat × Nat × Caps)
  | 0, _ => []
  | fuel + 1, pos =>
    if pos > cs.length then []
    else
      match (mrun (mfuel re (cs.drop pos)) re (cs.drop pos) []).head? with
      | some (rest, caps) =>
        let mlen := (cs.length - pos) - rest.length
        (pos, mlen, caps) :: findIterAux re cs fuel (if mlen == 0 then pos + 1 else pos + mlen)
      | none => findIterAux re cs fuel (pos + 1)

/-- All matches of a compiled pattern (with `ng` capture groups) in
`text`, in order, as `re.finditer(pattern, text, re.IGNORECASE)` yields
them. -/
def reMatches (re : Regex) (ng : Nat) (text : String) : List ReMatch :=
  let cs := text.toList
  (findIterAux re cs (cs.length + 2) 0).map (fun t =>
    { fullText := String.mk ((cs.drop t.1).take t.2.1)
      groups := (List.range ng).map (fun i => (getCap t.2.2 (i + 1)).map String.mk)
      startPos := t.1 })

/-! ### Pattern compilation (`re.compile`)

A recursive-descent parser for the subset, mirroring which strings
`re.compile` accepts: unbalanced parentheses, a dangling quantifier, or
an escape of a letter outside the supported classes are compile errors.
Capture groups are numbered by opening parenthesis starting at 1. -/

/-- Grammar level being parsed: an alternation, a concatenation, a
quantified atom, or an atom.  (The four levels are a single recursive
function on fuel so that the parser reduces inside the kernel.) -/
inductive PLevel where
  | alt
  | cat
  | rep
  | atom
deriving DecidableEq, Repr

/-- Recursive-descent parser for the subset.  `parseRx fuel lvl cs g`
parses one production of level `lvl` from `cs` with `g` the next capture
group number; it returns the syntax tree, the remaining input and the
updated group counter, or `none` on a pattern error.
Levels: `alt` is `cat ('|' cat)*`; `cat` is a sequence of quantified
atoms stopping at `)`, `|` or the end; `rep` is an atom with an optional
`+`, `*` or `?`; `atom` is a (non-)capturing group, an escape, `.` or a
literal character.  A dangling quantifier, an unbalanced parenthesis or
an escaped letter outside `w`/`s`/`d` is an error, as in `re.compile`. -/
def parseRx : Nat → PLevel → List Char → Nat → Option (Regex × List Char × Nat)
  | 0, _, _, _ => none
  | f + 1, .alt, cs, g =>
    (parseRx f .cat cs g).bind (fun p =>
      match p.2.1 with
      | '|' :: cs2 => (parseRx f .alt cs2 p.2.2).map (fun q => (.alt p.1 q.1, q.2.1, q.2.2))
      | _ => some p)
  | f + 1, .cat, cs, g =>
    match cs with
    | [] => some (.eps, [], g)
    | ')' :: _ => some (.eps, cs, g)
    | '|' :: _ => some (.eps, cs, g)
    | _ =>
      (parseRx f .rep cs g).bind (fun p =>
        (parseRx f .cat p.2.1 p.2.2).map (fun q => (.seq p.1 q.1, q.2.1, q.2.2)))
  | f + 1, .rep, cs, g =>
    (parseRx f .atom cs g).map (fun p =>
      match p.2.1 with
      | '+' :: rest => (.seq p.1 (.star p.1), rest, p.2.2)
      | '*' :: rest => (.star p.1, rest, p.2.2)
      | '?' :: rest => (.alt p.1 .eps, rest, p.2.2)
      | _ => p)
  | f + 1, .atom, cs, g =>
    match cs with
    | '(' :: '?' :: ':' :: rest =>
      (parseRx f .alt rest g).bind (fun p =>
        match p.2.1 with
        | ')' :: cs2 => some (p.1, cs2, p.2.2)
        | _ => none)
    | '(' :: rest =>
      (parseRx f .alt rest (g + 1)).bind (fun p =>
        match p.2.1 with
        | ')' :: cs2 => some (.group g p.1, cs2, p.2.2)
        | _ => none)
    | '\\' :: 'w' :: rest => some (.cls .word, rest, g)
    | '\\' :: 's' :: rest => some (.cls .space, rest, g)
    | '\\' :: 'd' :: rest => some (.cls .digit, rest, g)
    | '\\' :: c :: rest => if c.isAlphanum then none else some (.ch c, rest, g)
    | '\\' :: [] => none
    | '.' :: rest => some (.cls .any, rest, g)
    | ')' :: _ => none
    | '|' :: _ => none
    | '+' :: _ => none
    | '*' :: _ => none
    | '?' :: _ => none
    | c :: rest => some (.ch c, rest, g)
    | [] => none

/-- Model of `re.compile` on the subset: `some (ast, number of capture
groups)` on success, `none` on a pattern `re.compile` rejects. -/
def compileRegex (p : String) : Option (Regex × Nat) :=
  let cs := p.toList
  match parseRx (4 * cs.length + 8) .alt cs 1 with
  | some (r, [], g) => some (r, g - 1)
  | _ => none

/-! ### Data model (`models/logic_statement.py`, `models/rule.py`) -/

/-- A metadata value: the engine stores strings, integer positions and
lists of token values in statement metadata. -/
inductive MetaVal where
  | s (v : String)
  | n (v : Nat)
  | ls (v : List String)
deriving DecidableEq, Repr

/-- Model of `LogicStatement`: a subject/predicate/object triple with a type tag,
a confidence and metadata.  Confidence (a Python `float`) is modelled as
a rational.  The wall-clock `created_at` field is omitted: it never
influences the engine (after deduplication all compared statements
already differ in their triple). -/
structure LogicStatement where
  subject : String
  predicate : String
  object : String
  statement_type : String
  confidence : ℚ
  metadata : List (String × MetaVal)
deriving DecidableEq, Repr

/-- Model of `LogicStatement.__post_init__`: constructing a statement validates
`0 <= confidence <= 1` first and then that subject, predicate and object
are non-empty (Python truthiness of strings); a violation raises
`ValueError`, modelled as `none`. -/
def mkLogicStatement (subject predicate object statement_type : String)
    (confidence : ℚ) (metadata : List (String × MetaVal)) : Option LogicStatement :=
  if ¬(0 ≤ confidence ∧ confidence ≤ 1) then none
  else if subject = "" ∨ predicate = "" ∨ object = "" then none
  else some ⟨subject, predicate, object, statement_type, confidence, metadata⟩

/-- Model of `Rule` (pattern-matching rule): name, pattern, rule type, action
mapping (string-valued keys `predicate`, `object`, `statement_type`),
description, priority and enabled flag. -/
structure Rule where
  name : String
  pattern : String
  rule_type : String
  action : List (String × String)
  description : String := ""
  priority : Int := 50
  enabled : Bool := true
deriving DecidableEq, Repr

/-- The subset model's compilability test: whether `compileRegex`
accepts the pattern.  Agrees with `re.compile` on the regex subset this
development evaluates (the built-in and test patterns); outside the
subset `re.compile`'s acceptance is not modelled, which is why
`mkRuleWith` below takes the compilability test as a parameter. -/
def re_compiles (p : String) : Bool := (compileRegex p).isSome

/-- Model of `Rule.__post_init__`: the rule type must be one of the four
variants; a `regex` rule's pattern must compile; the priority must lie
in `[0, 100]`.  Each violation raises `ValueError` at construction time,
modelled as `Except.error` with the corresponding message.
The source defers "does this pattern compile" entirely to the external
`re` library (`try: re.compile(self.pattern) except re.error: raise`),
so the embedding takes that test as a parameter `compiles`: any
statement proved for every `compiles` holds in particular for
`re.compile`'s actual acceptance predicate. -/
def mkRuleWith (compiles : String → Bool) (name pattern rule_type : String)
    (action : List (String × String)) (description : String) (priority : Int)
    (enabled : Bool) : Except String Rule :=
  if ¬(rule_type = "regex" ∨ rule_type = "token" ∨ rule_type = "sequence" ∨ rule_type = "custom") then
    .error "Invalid rule type"
  else if rule_type = "regex" ∧ compiles pattern = false then
    .error "Invalid regex pattern"
  else if ¬(0 ≤ priority ∧ priority ≤ 100) then
    .error "Priority must be between 0 and 100"
  else
    .ok ⟨name, pattern, rule_type, action, description, priority, enabled⟩

/-- Model of `Rule.__post_init__` with the compilability test
instantiated by the subset model (executable on concrete patterns inside
the subset, where it agrees with `re.compile`). -/
def mkRule (name pattern rule_type : String) (action : List (String × String))
    (description : String) (priority : Int) (enabled : Bool) : Except String Rule :=
  mkRuleWith re_compiles name pattern rule_type action description priority enabled

/-- Python `dict.get(key, default)` on a rule's action mapping. -/
def actionGet (action : List (String × String)) (key dflt : String) : String :=
  match action.lookup key with
  | some v => v
  | none => dflt

/-- A parsed token (`parser.py`, dataclass `Token`).  The engine reads
only `value`; position and type tag are carried along unchanged. -/
structure Token where
  value : String
  byte_position : Nat := 0
  byte_length : Nat := 0
  token_type : String := "word"
deriving DecidableEq, Repr

/-- Python `str.lower()` (ASCII inputs). -/
def lowerStr (s : String) : String := String.mk (s.toList.map Char.toLower)

/-- Accumulating worker for `pySplit`: split on whitespace, discarding
empty pieces (the current word is accumulated in reverse). -/
def pySplitAux : List Char → List Char → List String
  | [], acc => if acc.isEmpty then [] else [String.mk acc.reverse]
  | c :: rest, acc =>
    if c.isWhitespace then
      if acc.isEmpty then pySplitAux rest [] else String.mk acc.reverse :: pySplitAux rest []
    else pySplitAux rest (c :: acc)

/-- Python `str.split()` with no argument: split on whitespace runs,
discarding empty pieces. -/
def pySplit (s : String) : List String := pySplitAux s.toList []

/-- Interleave a separator between character runs (`sep.join` worker). -/
def intercalateCh (sep : List Char) : List (List Char) → List Char
  | [] => []
  | [x] => x
  | x :: y :: xs => x ++ sep ++ intercalateCh sep (y :: xs)

/-- Python `" ".join(values)`. -/
def joinSpaces (xs : List String) : String :=
  String.mk (intercalateCh [' '] (xs.map String.toList))

/-! ### The rule engine (`core/rule_engine.py`) -/

/-- Model of `RuleEngine._create_statement_from_match`: build a statement from a
regex match.  `subject = groups[0] if groups else match.group(0)` — with
at least one capture group the subject is group 1's text (a non-empty
tuple is truthy), otherwise the whole match; the object is group 2 when
there are at least two groups, else the action's `object` (default
`"pattern"`).  Confidence is fixed at 0.7.  Any failure (a `None` group,
an empty component rejected by `LogicStatement.__post_init__`) is caught
and yields no statement for that match. -/
def create_statement_from_match (rule : Rule) (m : ReMatch) : Option LogicStatement :=
  let subjectOpt : Option String :=
    match m.groups with
    | [] => some m.fullText
    | g :: _ => g
  let objectOpt : Option String :=
    if m.groups.length > 1 then m.groups.getD 1 none
    else some (actionGet rule.action "object" "pattern")
  match subjectOpt, objectOpt with
  | some subj, some ob =>
    mkLogicStatement subj (actionGet rule.action "predicate" "matches") ob
      (actionGet rule.action "statement_type" "extraction") (7 / 10)
      [("rule", .s rule.name), ("match_position", .n m.startPos), ("match_text", .s m.fullText)]
  | _, _ => none

/-- Model of `RuleEngine._get_token_context`: the token values in the window
`[max(0, index - window), min(len, index + window + 1))`. -/
def get_token_context (tokens : List Token) (index window : Nat) : List String :=
  let start := index - window
  let stop := min tokens.length (index + window + 1)
  ((tokens.map Token.value).drop start).take (stop - start)

/-- Model of `RuleEngine._apply_token_rule`: every token whose lowercased value
equals one of the whitespace-separated pattern alternatives produces one
statement with the token's literal value as subject, action defaults
`matches`/`pattern`/`assertion`, confidence 0.8, and context metadata. -/
def apply_token_rule (rule : Rule) (tokens : List Token) : List LogicStatement :=
  let patternTokens := pySplit rule.pattern
  tokens.enum.flatMap (fun p =>
    if (patternTokens.map lowerStr).contains (lowerStr p.2.value) then
      [{ subject := p.2.value
         predicate := actionGet rule.action "predicate" "matches"
         object := actionGet rule.action "object" "pattern"
         statement_type := actionGet rule.action "statement_type" "assertion"
         confidence := 4 / 5
         metadata := [("rule", .s rule.name), ("context", .ls (get_token_context tokens p.1 2)),
                      ("token_position", .n p.1)] }]
    else [])

/-- Fallback token for out-of-range indexing (never reached on the
in-range accesses the engine performs). -/
def dummyToken : Token := { value := "" }

/-- Model of `RuleEngine._apply_sequence_rule`: every contiguous run of tokens
whose lowercased values equal the pattern's word sequence produces one
statement whose subject is the run's first token and whose object is the
run's last token (`"self"` for a length-1 sequence), with action
defaults `relates_to`/`relation` and confidence 0.9.
Degenerate case not modelled: for an EMPTY pattern (whitespace-only
`rule.pattern`, excluded by every rule used here — the only built-in
sequence pattern is `"if then"`) the Python loop reaches
`i = len(tokens)` and raises `IndexError`, where this total model's
`getD` yields a dummy-subject statement instead. -/
def apply_sequence_rule (rule : Rule) (tokens : List Token) : List LogicStatement :=
  let sequence := pySplit rule.pattern
  let toksLower := tokens.map (fun t => lowerStr t.value)
  (List.range (tokens.length - sequence.length + 1)).flatMap (fun i =>
    if (toksLower.drop i).take sequence.length = sequence.map lowerStr then
      [{ subject := (tokens.getD i dummyToken).value
         predicate := actionGet rule.action "predicate" "relates_to"
         object := if sequence.length > 1 then (tokens.getD (i + sequence.length - 1) dummyToken).value
                   else "self"
         statement_type := actionGet rule.action "statement_type" "relation"
         confidence := 9 / 10
         metadata := [("rule", .s rule.name), ("sequence_start", .n i),
                      ("sequence_length", .n sequence.length)] }]
    else [])

/-- Model of `RuleEngine._apply_single_rule`: join the token values with spaces
and dispatch on the rule type.  For a regex rule, every `finditer` match
is turned into a statement via `create_statement_from_match` (matches
that fail extraction are skipped). -/
def apply_single_rule (rule : Rule) (tokens : List Token) : List LogicStatement :=
  let text := joinSpaces (tokens.map Token.value)
  if rule.rule_type = "regex" then
    match compileRegex rule.pattern with
    | none => []
    | some (re, ng) => (reMatches re ng text).filterMap (create_statement_from_match rule)
  else if rule.rule_type = "token" then apply_token_rule rule tokens
  else if rule.rule_type = "sequence" then apply_sequence_rule rule tokens
  else []

/-- Deduplication key: the `(subject, predicate, object)` triple. -/
def stmtKey (s : LogicStatement) : String × String × String :=
  (s.subject, s.predicate, s.object)

/-- First value bound to `k` in an insertion-ordered association list
(Python `dict` lookup). -/
def dictFind (k : String × String × String) :
    List ((String × String × String) × LogicStatement) → Option LogicStatement
  | [] => none
  | (k', v) :: rest => if k' = k then some v else dictFind k rest

/-- Python `d[k] = v` on an insertion-ordered association list: replace in
place if the key is present, else append (Python `dict` assignment). -/
def dictSet (k : String × String × String) (v : LogicStatement) :
    List ((String × String × String) × LogicStatement) →
    List ((String × String × String) × LogicStatement)
  | [] => [(k, v)]
  | (k', v') :: rest => if k' = k then (k, v) :: rest else (k', v') :: dictSet k v rest

/-- One step of `_merge_duplicate_statements`: keep the incoming
statement only if its key is new or its confidence is strictly higher
than the stored one's. -/
def mergeStep (m : List ((String × String × String) × LogicStatement)) (s : LogicStatement) :
    List ((String × String × String) × LogicStatement) :=
  match dictFind (stmtKey s) m with
  | none => dictSet (stmtKey s) s m
  | some prev => if prev.confidence < s.confidence then dictSet (stmtKey s) s m else m

/-- Model of `RuleEngine._merge_duplicate_statements`: group by the triple,
keeping per key the first-seen statement of strictly highest confidence,
in dict insertion order. -/
def merge_duplicate_statements (l : List LogicStatement) : List LogicStatement :=
  (l.foldl mergeStep []).map Prod.snd

/-- One step of the spec-side survivor selection: keep the earlier
candidate unless the new statement's confidence is strictly higher. -/
def sfmStep (acc : Option LogicStatement) (s : LogicStatement) : Option LogicStatement :=
  match acc with
  | none => some s
  | some b => if b.confidence < s.confidence then some s else some b

/-- The spec's words for the deduplication survivor ("retain the single
statement with the strictly highest confidence (first-seen wins on
ties)"), modelled directly: the first element attaining the maximal
confidence of the group, used to compare the code's behaviour with the
specified one. -/
def specFirstMax : List LogicStatement → Option LogicStatement :=
  List.foldl sfmStep none

/-- The loop body of `_calculate_confidence_scores`, processing the list
in place: for the current statement, count the statements of the current
list state (earlier ones already updated) that are not equal to it and
share its subject or its object; if the count is positive add
`0.05 * count` to its confidence, clamped at 1.0. -/
def calcGo : List LogicStatement → List LogicStatement → List LogicStatement
  | done, [] => done
  | done, s :: rest =>
    let all := done ++ s :: rest
    let cnt := (all.filter (fun o =>
      decide (o ≠ s) && decide (o.subject = s.subject ∨ o.object = s.object))).length
    let s' := if cnt > 0 then { s with confidence := min 1 (s.confidence + 5 / 100 * cnt) } else s
    calcGo (done ++ [s']) rest

/-- Model of `RuleEngine._calculate_confidence_scores`. -/
def calculate_confidence_scores (l : List LogicStatement) : List LogicStatement :=
  calcGo [] l

/-- Model of `RuleEngine._initialize_builtin_rules`: the five built-in rules. -/
def builtin_rules : List Rule :=
  [ { name := "is_a_relation"
      pattern := "(\\w+)\\s+is\\s+(?:a|an)\\s+(\\w+)"
      rule_type := "regex"
      action := [("predicate", "is_a"), ("statement_type", "classification")]
      description := "Detects 'X is a Y' relationships" },
    { name := "has_relation"
      pattern := "(\\w+)\\s+has\\s+(\\w+)"
      rule_type := "regex"
      action := [("predicate", "has"), ("statement_type", "property")]
      description := "Detects 'X has Y' relationships" },
    { name := "action_object"
      pattern := "(\\w+)\\s+(\\w+s)\\s+(\\w+)"
      rule_type := "regex"
      action := [("predicate", "acts_on"), ("statement_type", "action")]
      description := "Detects subject-verb-object patterns" },
    { name := "if_then"
      pattern := "if then"
      rule_type := "sequence"
      action := [("predicate", "implies"), ("statement_type", "conditional")]
      description := "Detects conditional statements" },
    { name := "definition"
      pattern := "(\\w+)\\s+is\\s+defined\\s+as\\s+(.+)"
      rule_type := "regex"
      action := [("predicate", "defined_as"), ("statement_type", "definition")]
      description := "Detects definitions" } ]

/-- The `apply_rules` pipeline on a given rule list: apply each rule in
list order, then deduplicate, then recalculate confidences. -/
def apply_rules_nocache (rules : List Rule) (tokens : List Token) : List LogicStatement :=
  calculate_confidence_scores
    (merge_duplicate_statements (rules.flatMap (fun r => apply_single_rule r tokens)))

/-- Whether Python can hash a `ParsedData` value: it cannot.
`ParsedData` is declared with plain `@dataclass` (`eq=True`, not frozen,
no `unsafe_hash`), so Python sets its `__hash__` to `None` and
`hash(parsed_data)` raises `TypeError: unhashable type`. -/
def parsedDataHashable : Bool := false

/-- Model of `RuleEngine.apply_rules` as constructed (`__init__` wraps
`_apply_single_rule` in `functools.lru_cache` keyed on
`(rule, parsed_data)` when `enable_caching` is true, the default).
Empty or missing `custom_rules` falls back to the built-in rules
(Python truthiness of the list).  With caching enabled the first cache
lookup hashes `parsed_data` and raises `TypeError`, modelled as
`Except.error`; without caching the pipeline runs. -/
def apply_rules (enable_caching : Bool) (custom_rules : Option (List Rule))
    (tokens : List Token) : Except String (List LogicStatement) :=
  let rules :=
    match custom_rules with
    | none => builtin_rules
    | some l => if l = [] then builtin_rules else l
  if enable_caching && !parsedDataHashable then
    .error "TypeError: unhashable type: ParsedData"
  else
    .ok (apply_rules_nocache rules tokens)

/-! ### Concrete scenario inputs -/

/-- Token sequence of Scenario A: `["The", "cat", "is", "a", "mammal"]`
(byte positions as the whitespace tokenizer would assign; the engine
reads only the values). -/
def tokensA : List Token :=
  [ { value := "The", byte_position := 0, byte_length := 3 },
    { value := "cat", byte_position := 4, byte_length := 3 },
    { value := "is", byte_position := 8, byte_length := 2 },
    { value := "a", byte_position := 11, byte_length := 1 },
    { value := "mammal", byte_position := 13, byte_length := 6 } ]

/-- The statement Scenario A actually produces for the `is_a_relation`
rule: base confidence 0.7, boosted once (by 0.05) because the
`action_object` built-in rule derives a second surviving statement with
the same subject. -/
def stmtIsA : LogicStatement :=
  { subject := "cat", predicate := "is_a", object := "mammal"
    statement_type := "classification", confidence := 3 / 4
    metadata := [("rule", .s "is_a_relation"), ("match_position", .n 4),
                 ("match_text", .s "cat is a mammal")] }

/-- The second statement Scenario A produces: the `action_object` rule's
pattern `(\w+)\s+(\w+s)\s+(\w+)` matches `"cat is a"` (groups `cat`,
`is`, `a`), and the code takes `groups[0]`/`groups[1]` as
subject/object; its confidence is likewise boosted to 0.75. -/
def stmtActsOn : LogicStatement :=
  { subject := "cat", predicate := "acts_on", object := "is"
    statement_type := "action", confidence := 3 / 4
    metadata := [("rule", .s "action_object"), ("match_position", .n 4),
                 ("match_text", .s "cat is a")] }

/-- Regex rule with no action entries, used at concrete match inputs. -/
def cexRule : Rule :=
  { name := "r", pattern := "a(b)", rule_type := "regex", action := [] }

/-- A match of `a(b)` against `"ab"`: whole match `"ab"`, one capture
group `"b"`. -/
def cexMatch : ReMatch := { fullText := "ab", groups := [some "b"], startPos := 0 }

/-- A zero-group match (pattern `ab` against `"ab"`). -/
def cexMatch0 : ReMatch := { fullText := "ab", groups := [], startPos := 0 }

/-- A two-group match (pattern `(a)(b)` against `"ab"`). -/
def cexMatch2 : ReMatch := { fullText := "ab", groups := [some "a", some "b"], startPos := 0 }

/-- Scenario E inputs: duplicate `(cat, is_a, mammal)` statements with
confidences 0.7 and 0.9. -/
def catS7 : LogicStatement :=
  { subject := "cat", predicate := "is_a", object := "mammal"
    statement_type := "classification", confidence := 7 / 10, metadata := [] }

/-- Scenario E: the 0.9-confidence duplicate. -/
def catS9 : LogicStatement :=
  { subject := "cat", predicate := "is_a", object := "mammal"
    statement_type := "classification", confidence := 9 / 10, metadata := [] }

/-- The statement `_create_statement_from_match` produces for `cexRule`
at the one-group match `cexMatch`: the subject is the group's text
`"b"`, not the whole matched text `"ab"`. -/
def cexStmt : LogicStatement :=
  { subject := "b", predicate := "matches", object := "pattern"
    statement_type := "extraction", confidence := 7 / 10
    metadata := [("rule", .s "r"), ("match_position", .n 0), ("match_text", .s "ab")] }

end SynopticCore

namespace CoreEngine

theorem onePass_facts_subset (hit : String → Bool) :
    ∀ (rules : List Rule) (facts inferred : Finset String) (applied : Bool),
      facts ⊆ (onePass hit rules facts inferred applied).facts := by
  intro rules
  induction rules with
  | nil => intro facts inferred applied; simp [onePass]
  | cons r rest ih =>
    intro facts inferred applied
    by_cases h1 : r.consequent ∈ facts
    · simpa [onePass, h1] using ih facts inferred applied
    · by_cases h2 : r.antecedents.all (fun a => decide (a ∈ facts))
      · by_cases h3 : hit r.consequent
        · simp [onePass, h1, h2, h3]
        · simp only [onePass, if_neg h1, if_pos h2, if_neg h3]
          exact (Finset.subset_insert _ _).trans (ih _ _ _)
      · simpa [onePass, h1, h2] using ih facts inferred applied

theorem onePass_progress (hit : String → Bool) :
    ∀ (rules : List Rule) (facts inferred : Finset String),
      (onePass hit rules facts inferred false).applied = true →
      ∃ c ∈ consequentsOf rules, c ∉ facts ∧ c ∈ (onePass hit rules facts inferred false).facts := by
  intro rules
  induction rules with
  | nil => intro facts inferred h; simp [onePass] at h
  | cons r rest ih =>
    intro facts inferred h
    by_cases h1 : r.consequent ∈ facts
    · rw [onePass, if_pos h1] at h ⊢
      obtain ⟨c, hc, hcf, hcr⟩ := ih facts inferred h
      exact ⟨c, by simp [consequentsOf] at hc ⊢; exact Or.inr hc, hcf, hcr⟩
    · by_cases h2 : r.antecedents.all (fun a => decide (a ∈ facts))
      · by_cases h3 : hit r.consequent
        · refine ⟨r.consequent, by simp [consequentsOf], h1, ?_⟩
          simp [onePass, h1, h2, h3]
        · refine ⟨r.consequent, by simp [consequentsOf], h1, ?_⟩
          rw [onePass, if_neg h1, if_pos h2, if_neg h3]
          exact onePass_facts_subset hit rest _ _ _ (Finset.mem_insert_self _ _)
      · rw [onePass, if_neg h1, if_neg h2] at h ⊢
        obtain ⟨c, hc, hcf, hcr⟩ := ih facts inferred h
        exact ⟨c, by simp [consequentsOf] at hc ⊢; exact Or.inr hc, hcf, hcr⟩

theorem onePass_append (hit : String → Bool) :
    ∀ (pre post : List Rule) (facts inferred : Finset String) (applied : Bool),
      onePass hit (pre ++ post) facts inferred applied =
        (let p := onePass hit pre facts inferred applied
         if p.stopped then p else onePass hit post p.facts p.inferred p.applied) := by
  intro pre
  induction pre with
  | nil => intro post facts inferred applied; simp [onePass]
  | cons r rest ih =>
    intro post facts inferred applied
    by_cases h1 : r.consequent ∈ facts
    · simp only [List.cons_append, onePass, if_pos h1]
      exact ih post facts inferred applied
    · by_cases h2 : r.antecedents.all (fun a => decide (a ∈ facts))
      · by_cases h3 : hit r.consequent
        · simp [onePass, h1, h2, h3]
        · simp only [List.cons_append, onePass, if_neg h1, if_pos h2, if_neg h3]
          exact ih post _ _ _
      · simp only [List.cons_append, onePass, if_neg h1, if_neg h2]
        exact ih post facts inferred applied

theorem runLoopF_spec (hit : String → Bool) (rules : List Rule) :
    ∀ (fuel : Nat) (facts inferred : Finset String),
      (consequentsOf rules \ facts).card < fuel →
      (runLoopF hit rules fuel facts inferred).fuelOut = false ∧
      facts ⊆ (runLoopF hit rules fuel facts inferred).facts ∧
      (runLoopF hit rules fuel facts inferred).passes ≤ (consequentsOf rules \ facts).card + 1 := by
  intro fuel
  induction fuel with
  | zero => intro facts inferred h; omega
  | succ n ih =>
    intro facts inferred h
    by_cases hs : (onePass hit rules facts inferred false).stopped
    · refine ⟨by simp [runLoopF, hs], ?_, ?_⟩
      · have h0 := onePass_facts_subset hit rules facts inferred false
        simpa [runLoopF, hs] using h0
      · have h0 : (runLoopF hit rules (n + 1) facts inferred).passes = 1 := by
          simp [runLoopF, hs]
        omega
    · by_cases ha : (onePass hit rules facts inferred false).applied
      · -- the pass made progress: at least one consequent not in `facts` was added
        obtain ⟨c, hc, hcf, hcr⟩ := onePass_progress hit rules facts inferred ha
        have hsub : facts ⊆ (onePass hit rules facts inferred false).facts :=
          onePass_facts_subset hit rules facts inferred false
        have hlt : (consequentsOf rules \ (onePass hit rules facts inferred false).facts).card
            < (consequentsOf rules \ facts).card := by
          apply Finset.card_lt_card
          constructor
          · exact Finset.sdiff_subset_sdiff (le_refl _) hsub
          · intro hcontra
            have := hcontra (Finset.mem_sdiff.mpr ⟨hc, hcf⟩)
            rw [Finset.mem_sdiff] at this
            exact this.2 hcr
        have hn : (consequentsOf rules \ (onePass hit rules facts inferred false).facts).card < n := by
          omega
        obtain ⟨ih1, ih2, ih3⟩ := ih (onePass hit rules facts inferred false).facts
          (onePass hit rules facts inferred false).inferred hn
        refine ⟨?_, ?_, ?_⟩ <;> simp only [runLoopF, if_neg hs, if_pos ha]
        · exact ih1
        · exact hsub.trans ih2
        · omega
      · refine ⟨by simp [runLoopF, hs, ha], ?_, ?_⟩
        · have h0 := onePass_facts_subset hit rules facts inferred false
          simpa [runLoopF, hs, ha] using h0
        · have h0 : (runLoopF hit rules (n + 1) facts inferred).passes = 1 := by
            simp [runLoopF, hs, ha]
          omega

theorem runLoopF_fuel_enough (hit : String → Bool) (rules : List Rule)
    (facts inferred : Finset String) :
    (runLoopF hit rules (runFuel rules) facts inferred).fuelOut = false := by
  have h : (consequentsOf rules \ facts).card < runFuel rules := by
    have := Finset.card_le_card (Finset.sdiff_subset (s := consequentsOf rules) (t := facts))
    unfold runFuel
    omega
  exact (runLoopF_spec hit rules (runFuel rules) facts inferred h).1

theorem passState_zero (hit : String → Bool) (rules : List Rule)
    (facts inferred : Finset String) :
    passState hit rules 0 facts inferred = (facts, inferred) := rfl

theorem passState_succ (hit : String → Bool) (rules : List Rule) (k : Nat)
    (facts inferred : Finset String) :
    passState hit rules (k + 1) facts inferred =
      passState hit rules k (onePass hit rules facts inferred false).facts
        (onePass hit rules facts inferred false).inferred := rfl

theorem onePass_card_lt (hit : String → Bool) (rules : List Rule)
    (facts inferred : Finset String)
    (h : (onePass hit rules facts inferred false).applied = true) :
    (consequentsOf rules \ (onePass hit rules facts inferred false).facts).card <
      (consequentsOf rules \ facts).card := by
  obtain ⟨c, hc, hcf, hcr⟩ := onePass_progress hit rules facts inferred h
  have hsub : facts ⊆ (onePass hit rules facts inferred false).facts :=
    onePass_facts_subset hit rules facts inferred false
  apply Finset.card_lt_card
  constructor
  · exact Finset.sdiff_subset_sdiff (le_refl _) hsub
  · intro hcontra
    have hmem := hcontra (Finset.mem_sdiff.mpr ⟨hc, hcf⟩)
    rw [Finset.mem_sdiff] at hmem
    exact hmem.2 hcr

/-- After `k` progressing passes, at least `k` of the addable consequents
have been consumed: bounds how late a pass can occur. -/
theorem passState_card (hit : String → Bool) (rules : List Rule) :
    ∀ (k : Nat) (facts inferred : Finset String),
      (∀ j, j < k →
        (onePass hit rules (passState hit rules j facts inferred).1
          (passState hit rules j facts inferred).2 false).applied = true) →
      k + (consequentsOf rules \ (passState hit rules k facts inferred).1).card ≤
        (consequentsOf rules \ facts).card := by
  intro k
  induction k with
  | zero => intro facts inferred _; simp [passState]
  | succ n ih =>
    intro facts inferred hprev
    have h0 : (onePass hit rules facts inferred false).applied = true :=
      hprev 0 (Nat.succ_pos n)
    have hlt := onePass_card_lt hit rules facts inferred h0
    have hprev' : ∀ j, j < n →
        (onePass hit rules
          (passState hit rules j (onePass hit rules facts inferred false).facts
            (onePass hit rules facts inferred false).inferred).1
          (passState hit rules j (onePass hit rules facts inferred false).facts
            (onePass hit rules facts inferred false).inferred).2 false).applied = true := by
      intro j hj
      have hh := hprev (j + 1) (by omega)
      rw [passState_succ] at hh
      exact hh
    have ihn := ih (onePass hit rules facts inferred false).facts
      (onePass hit rules facts inferred false).inferred hprev'
    rw [passState_succ]
    omega

theorem runLoopF_succ_stop (hit : String → Bool) (rules : List Rule) (m : Nat)
    (facts inferred : Finset String)
    (h : (onePass hit rules facts inferred false).stopped = true) :
    runLoopF hit rules (m + 1) facts inferred =
      ⟨(onePass hit rules facts inferred false).facts,
       (onePass hit rules facts inferred false).inferred, true, 1, false⟩ := by
  rw [runLoopF]
  simp [h]

theorem runLoopF_succ_cont (hit : String → Bool) (rules : List Rule) (m : Nat)
    (facts inferred : Finset String)
    (hs : (onePass hit rules facts inferred false).stopped = false)
    (ha : (onePass hit rules facts inferred false).applied = true) :
    runLoopF hit rules (m + 1) facts inferred =
      ⟨(runLoopF hit rules m (onePass hit rules facts inferred false).facts
          (onePass hit rules facts inferred false).inferred).facts,
       (runLoopF hit rules m (onePass hit rules facts inferred false).facts
          (onePass hit rules facts inferred false).inferred).inferred,
       (runLoopF hit rules m (onePass hit rules facts inferred false).facts
          (onePass hit rules facts inferred false).inferred).stopped,
       (runLoopF hit rules m (onePass hit rules facts inferred false).facts
          (onePass hit rules facts inferred false).inferred).passes + 1,
       (runLoopF hit rules m (onePass hit rules facts inferred false).facts
          (onePass hit rules facts inferred false).inferred).fuelOut⟩ := by
  rw [runLoopF]
  simp [hs, ha]

/-- If each of the first `k` passes applied a rule without stopping and
pass `k + 1` stops on the goal, the loop returns that pass's state with
exactly `k + 1` passes executed, whatever fuel remains. -/
theorem runLoopF_stops_at (hit : String → Bool) (rules : List Rule) :
    ∀ (k fuel : Nat) (facts inferred : Finset String),
      k < fuel →
      (∀ j, j < k →
        (onePass hit rules (passState hit rules j facts inferred).1
          (passState hit rules j facts inferred).2 false).applied = true ∧
        (onePass hit rules (passState hit rules j facts inferred).1
          (passState hit rules j facts inferred).2 false).stopped = false) →
      (onePass hit rules (passState hit rules k facts inferred).1
        (passState hit rules k facts inferred).2 false).stopped = true →
      runLoopF hit rules fuel facts inferred =
        ⟨(onePass hit rules (passState hit rules k facts inferred).1
            (passState hit rules k facts inferred).2 false).facts,
         (onePass hit rules (passState hit rules k facts inferred).1
            (passState hit rules k facts inferred).2 false).inferred,
         true, k + 1, false⟩ := by
  intro k
  induction k with
  | zero =>
    intro fuel facts inferred hf _ hstop
    cases fuel with
    | zero => omega
    | succ m =>
      have hstop' : (onePass hit rules facts inferred false).stopped = true := hstop
      rw [runLoopF_succ_stop hit rules m facts inferred hstop']
      rfl
  | succ n ih =>
    intro fuel facts inferred hf hprev hstop
    cases fuel with
    | zero => omega
    | succ m =>
      have h0 := hprev 0 (Nat.succ_pos n)
      have h0a : (onePass hit rules facts inferred false).applied = true := h0.1
      have h0s : (onePass hit rules facts inferred false).stopped = false := h0.2
      rw [runLoopF_succ_cont hit rules m facts inferred h0s h0a]
      have hprev' : ∀ j, j < n →
          (onePass hit rules
            (passState hit rules j (onePass hit rules facts inferred false).facts
              (onePass hit rules facts inferred false).inferred).1
            (passState hit rules j (onePass hit rules facts inferred false).facts
              (onePass hit rules facts inferred false).inferred).2 false).applied = true ∧
          (onePass hit rules
            (passState hit rules j (onePass hit rules facts inferred false).facts
              (onePass hit rules facts inferred false).inferred).1
            (passState hit rules j (onePass hit rules facts inferred false).facts
              (onePass hit rules facts inferred false).inferred).2 false).stopped = false := by
        intro j hj
        have hh := hprev (j + 1) (by omega)
        rw [passState_succ] at hh
        exact hh
      have hstop' : (onePass hit rules
          (passState hit rules n (onePass hit rules facts inferred false).facts
            (onePass hit rules facts inferred false).inferred).1
          (passState hit rules n (onePass hit rules facts inferred false).facts
            (onePass hit rules facts inferred false).inferred).2 false).stopped = true := by
        have hh := hstop
        rw [passState_succ] at hh
        exact hh
      have ihn := ih m (onePass hit rules facts inferred false).facts
        (onePass hit rules facts inferred false).inferred (by omega) hprev' hstop'
      rw [ihn, passState_succ]

end CoreEngine

namespace SynopticCore

theorem dictFind_eq_none_iff (k : String × String × String) :
    ∀ m : List ((String × String × String) × LogicStatement),
      dictFind k m = none ↔ ∀ p ∈ m, p.1 ≠ k := by
  intro m
  induction m with
  | nil => simp [dictFind]
  | cons p rest ih =>
    obtain ⟨k', v⟩ := p
    by_cases h : k' = k
    · simp [dictFind, h]
    · simp [dictFind, h, ih]

theorem dictFind_append (k : String × String × String) :
    ∀ m₁ m₂ : List ((String × String × String) × LogicStatement),
      dictFind k (m₁ ++ m₂) =
        (match dictFind k m₁ with
         | some v => some v
         | none => dictFind k m₂) := by
  intro m₁ m₂
  induction m₁ with
  | nil => simp [dictFind]
  | cons p rest ih =>
    obtain ⟨k', v⟩ := p
    by_cases h : k' = k
    · simp [dictFind, h]
    · simpa [dictFind, h] using ih

theorem dictSet_of_find_none (k : String × String × String) (x : LogicStatement) :
    ∀ m, dictFind k m = none → dictSet k x m = m ++ [(k, x)] := by
  intro m
  induction m with
  | nil => intro _; simp [dictSet]
  | cons p rest ih =>
    obtain ⟨k', v⟩ := p
    intro h
    by_cases hk : k' = k
    · simp [dictFind, hk] at h
    · simp [dictFind, hk] at h
      simp [dictSet, hk, ih h]

theorem dictFind_dictSet_self (k : String × String × String) (x : LogicStatement) :
    ∀ m, dictFind k (dictSet k x m) = some x := by
  intro m
  induction m with
  | nil => simp [dictSet, dictFind]
  | cons p rest ih =>
    obtain ⟨k', v⟩ := p
    by_cases hk : k' = k
    · simp [dictSet, hk, dictFind]
    · simp [dictSet, hk, dictFind, ih]

theorem dictFind_dictSet_other (k k' : String × String × String) (x : LogicStatement)
    (hne : k' ≠ k) : ∀ m, dictFind k' (dictSet k x m) = dictFind k' m := by
  have hkk : ¬ k = k' := fun h => hne h.symm
  intro m
  induction m with
  | nil => simp [dictSet, dictFind, hkk]
  | cons p rest ih =>
    obtain ⟨k0, v⟩ := p
    by_cases hk : k0 = k
    · subst hk
      simp [dictSet, dictFind, hkk]
    · simp [dictSet, hk, dictFind, ih]

theorem mem_dictSet (k : String × String × String) (x : LogicStatement) :
    ∀ m p, p ∈ dictSet k x m → p = (k, x) ∨ p ∈ m := by
  intro m
  induction m with
  | nil => intro p hp; simp [dictSet] at hp; exact Or.inl hp
  | cons q rest ih =>
    obtain ⟨k0, v⟩ := q
    intro p hp
    by_cases hk : k0 = k
    · simp [dictSet, hk] at hp
      rcases hp with h | h
      · exact Or.inl (by simp [h])
      · exact Or.inr (by simp [h])
    · simp only [dictSet, if_neg hk, List.mem_cons] at hp
      rcases hp with h | h
      · exact Or.inr (by simp [h])
      · rcases ih p h with h' | h'
        · exact Or.inl h'
        · exact Or.inr (by simp [h'])

theorem dictSet_map_fst_of_found (k : String × String × String) (x : LogicStatement) :
    ∀ m v, dictFind k m = some v → (dictSet k x m).map Prod.fst = m.map Prod.fst := by
  intro m
  induction m with
  | nil => intro v h; simp [dictFind] at h
  | cons q rest ih =>
    obtain ⟨k0, v0⟩ := q
    intro v h
    by_cases hk : k0 = k
    · simp [dictSet, hk]
    · simp only [dictFind, if_neg hk] at h
      simp [dictSet, hk, ih v h]

theorem specFirstMax_eq_none_iff (l : List LogicStatement) :
    specFirstMax l = none ↔ l = [] := by
  cases l with
  | nil => simp [specFirstMax]
  | cons x xs =>
    simp only [specFirstMax, List.foldl_cons]
    constructor
    · intro h
      exfalso
      -- a foldl starting from `some` never returns `none`
      have hstep : ∀ (ys : List LogicStatement) (b : LogicStatement),
          List.foldl sfmStep (some b) ys ≠ none := by
        intro ys
        induction ys with
        | nil => intro b; simp
        | cons y ys ih =>
          intro b
          simp only [List.foldl_cons, sfmStep]
          by_cases hc : b.confidence < y.confidence
          · simpa [hc] using ih y
          · simpa [hc] using ih b
      exact hstep xs x (by simpa [sfmStep] using h)
    · intro h
      exact absurd h (by simp)

theorem specFirstMax_append_singleton (l : List LogicStatement) (x : LogicStatement) :
    specFirstMax (l ++ [x]) = sfmStep (specFirstMax l) x := by
  simp only [specFirstMax, List.foldl_append, List.foldl_cons, List.foldl_nil]

theorem mergeStep_find_none (m : List ((String × String × String) × LogicStatement))
    (x : LogicStatement) (h : dictFind (stmtKey x) m = none) :
    mergeStep m x = dictSet (stmtKey x) x m := by
  unfold mergeStep
  rw [h]

theorem mergeStep_find_some (m : List ((String × String × String) × LogicStatement))
    (x prev : LogicStatement) (h : dictFind (stmtKey x) m = some prev) :
    mergeStep m x = if prev.confidence < x.confidence then dictSet (stmtKey x) x m else m := by
  unfold mergeStep
  rw [h]

/-- Invariants of the deduplication fold: entries store their own key,
keys are unique, and the entry at each key is exactly the first-seen
statement of strictly highest confidence among the processed statements
with that key. -/
theorem mergeFold_invariant :
    ∀ l : List LogicStatement,
      (∀ p ∈ l.foldl mergeStep [], stmtKey p.2 = p.1) ∧
      ((l.foldl mergeStep []).map Prod.fst).Nodup ∧
      (∀ k, dictFind k (l.foldl mergeStep []) =
        specFirstMax (l.filter (fun s => decide (stmtKey s = k)))) := by
  intro l
  induction l using List.reverseRecOn with
  | nil => refine ⟨by simp, by simp, ?_⟩; intro k; simp [dictFind, specFirstMax]
  | append_singleton l x ih =>
    obtain ⟨hKM, hND, hF⟩ := ih
    rw [List.foldl_append, List.foldl_cons, List.foldl_nil]
    set m := l.foldl mergeStep [] with hm
    have hfilter : ∀ k, (l ++ [x]).filter (fun s => decide (stmtKey s = k)) =
        l.filter (fun s => decide (stmtKey s = k)) ++
          (if stmtKey x = k then [x] else []) := by
      intro k
      rw [List.filter_append]
      by_cases hxk : stmtKey x = k <;> simp [hxk]
    cases hfx : dictFind (stmtKey x) m with
    | none =>
      rw [mergeStep_find_none m x hfx, dictSet_of_find_none _ _ _ hfx]
      refine ⟨?_, ?_, ?_⟩
      · intro p hp
        rcases List.mem_append.mp hp with h | h
        · exact hKM p h
        · simp at h; simp [h]
      · rw [List.map_append, List.nodup_append]
        refine ⟨hND, by simp, ?_⟩
        intro a ha hb
        simp at hb
        rcases List.mem_map.mp ha with ⟨p, hp, hpa⟩
        have hne := (dictFind_eq_none_iff _ m).mp hfx p hp
        rw [hpa] at hne
        exact hne hb
      · intro k
        rw [dictFind_append, hfilter k]
        by_cases hk : stmtKey x = k
        · subst hk
          have hnil : l.filter (fun s => decide (stmtKey s = stmtKey x)) = [] :=
            (specFirstMax_eq_none_iff _).mp (by rw [← hF (stmtKey x)]; exact hfx)
          rw [hfx, hnil]
          simp [dictFind, specFirstMax, sfmStep]
        · rw [if_neg hk, List.append_nil, ← hF k]
          cases hfk : dictFind k m with
          | none => simp [dictFind, hk]
          | some v => simp
    | some prev =>
      rw [mergeStep_find_some m x prev hfx]
      by_cases hlt : prev.confidence < x.confidence
      · rw [if_pos hlt]
        refine ⟨?_, ?_, ?_⟩
        · intro p hp
          rcases mem_dictSet _ _ m p hp with h | h
          · simp [h]
          · exact hKM p h
        · rw [dictSet_map_fst_of_found _ _ m prev hfx]; exact hND
        · intro k
          rw [hfilter k]
          by_cases hk : stmtKey x = k
          · subst hk
            rw [dictFind_dictSet_self, if_pos rfl, specFirstMax_append_singleton,
              ← hF (stmtKey x), hfx]
            simp [sfmStep, hlt]
          · rw [if_neg hk, List.append_nil,
              dictFind_dictSet_other _ _ _ (fun h => hk h.symm) m, hF k]
      · rw [if_neg hlt]
        refine ⟨hKM, hND, ?_⟩
        intro k
        rw [hfilter k]
        by_cases hk : stmtKey x = k
        · subst hk
          rw [hfx, if_pos rfl, specFirstMax_append_singleton, ← hF (stmtKey x), hfx]
          simp [sfmStep, hlt]
        · rw [if_neg hk, List.append_nil, hF k]

theorem map_snd_filter_eq_dictFind :
    ∀ (m : List ((String × String × String) × LogicStatement))
      (k : String × String × String),
      (∀ p ∈ m, stmtKey p.2 = p.1) → (m.map Prod.fst).Nodup →
      (m.map Prod.snd).filter (fun s => decide (stmtKey s = k)) = (dictFind k m).toList := by
  intro m
  induction m with
  | nil => intro k _ _; simp [dictFind]
  | cons p rest ih =>
    obtain ⟨k0, v⟩ := p
    intro k hKM hND
    have hv : stmtKey v = k0 := hKM (k0, v) (by simp)
    have hKM' : ∀ q ∈ rest, stmtKey q.2 = q.1 := fun q hq => hKM q (by simp [hq])
    have hND' : (rest.map Prod.fst).Nodup := (List.nodup_cons.mp (by simpa using hND)).2
    by_cases hk : k0 = k
    · subst hk
      have hnotin : k0 ∉ rest.map Prod.fst := (List.nodup_cons.mp (by simpa using hND)).1
      have hrest : (rest.map Prod.snd).filter (fun s => decide (stmtKey s = k0)) = [] := by
        rw [List.filter_eq_nil_iff]
        intro s hs
        rcases List.mem_map.mp hs with ⟨q, hq, hqs⟩
        have hkq : stmtKey s = q.1 := by rw [← hqs]; exact hKM' q hq
        simp only [decide_eq_true_eq]
        intro hcon
        apply hnotin
        rw [← hcon, hkq]
        exact List.mem_map.mpr ⟨q, hq, rfl⟩
      simp [dictFind, hv, hrest]
    · have hvk : ¬ (stmtKey v = k) := by rw [hv]; exact hk
      simp only [List.map_cons, List.filter_cons, decide_eq_true_eq]
      rw [if_neg hvk]
      simp only [dictFind, if_neg hk]
      exact ih k hKM' hND'

theorem specFirstMax_mem :
    ∀ (l : List LogicStatement) (acc : Option LogicStatement) (b : LogicStatement),
      List.foldl sfmStep acc l = some b → acc = some b ∨ b ∈ l := by
  intro l
  induction l with
  | nil => intro acc b h; simp at h; exact Or.inl (by simp [h])
  | cons x xs ih =>
    intro acc b h
    simp only [List.foldl_cons] at h
    cases acc with
    | none =>
      rw [show sfmStep none x = some x from rfl] at h
      rcases ih (some x) b h with h' | h'
      · simp at h'; exact Or.inr (by simp [h'])
      · exact Or.inr (by simp [h'])
    | some a =>
      rw [show sfmStep (some a) x
          = if a.confidence < x.confidence then some x else some a from rfl] at h
      by_cases hc : a.confidence < x.confidence
      · rw [if_pos hc] at h
        rcases ih (some x) b h with h' | h'
        · simp at h'; exact Or.inr (by simp [h'])
        · exact Or.inr (by simp [h'])
      · rw [if_neg hc] at h
        rcases ih (some a) b h with h' | h'
        · simp at h'; exact Or.inl (by simp [h'])
        · exact Or.inr (by simp [h'])

theorem specFirstMax_is_max :
    ∀ (l : List LogicStatement) (acc : Option LogicStatement) (b : LogicStatement),
      List.foldl sfmStep acc l = some b →
      (∀ a, acc = some a → a.confidence ≤ b.confidence) ∧
      (∀ x ∈ l, x.confidence ≤ b.confidence) := by
  intro l
  induction l with
  | nil =>
    intro acc b h
    simp at h
    exact ⟨fun a ha => by rw [h] at ha; simp at ha; rw [ha], by simp⟩
  | cons x xs ih =>
    intro acc b h
    simp only [List.foldl_cons] at h
    cases acc with
    | none =>
      rw [show sfmStep none x = some x from rfl] at h
      obtain ⟨h1, h2⟩ := ih (some x) b h
      refine ⟨by simp, ?_⟩
      intro y hy
      rcases List.mem_cons.mp hy with h' | h'
      · rw [h']; exact h1 x rfl
      · exact h2 y h'
    | some a =>
      rw [show sfmStep (some a) x
          = if a.confidence < x.confidence then some x else some a from rfl] at h
      by_cases hc : a.confidence < x.confidence
      · rw [if_pos hc] at h
        obtain ⟨h1, h2⟩ := ih (some x) b h
        refine ⟨?_, ?_⟩
        · intro a' ha'
          have haa : a = a' := by simpa using ha'
          rw [← haa]
          exact le_of_lt (lt_of_lt_of_le hc (h1 x rfl))
        · intro y hy
          rcases List.mem_cons.mp hy with h' | h'
          · rw [h']; exact h1 x rfl
          · exact h2 y h'
      · rw [if_neg hc] at h
        obtain ⟨h1, h2⟩ := ih (some a) b h
        refine ⟨?_, ?_⟩
        · intro a' ha'
          have haa : a = a' := by simpa using ha'
          rw [← haa]; exact h1 a rfl
        · intro y hy
          rcases List.mem_cons.mp hy with h' | h'
          · rw [h']
            exact le_trans (le_of_not_lt hc) (h1 a rfl)
          · exact h2 y h'

/-- Bound preservation of the confidence-recalculation loop body. -/
theorem calcGo_bounds :
    ∀ (todo done : List LogicStatement),
      (∀ s ∈ done, 0 ≤ s.confidence ∧ s.confidence ≤ 1) →
      (∀ s ∈ todo, 0 ≤ s.confidence ∧ s.confidence ≤ 1) →
      ∀ s ∈ calcGo done todo, 0 ≤ s.confidence ∧ s.confidence ≤ 1 := by
  intro todo
  induction todo with
  | nil => intro done hd _ s hs; rw [calcGo] at hs; exact hd s hs
  | cons x rest ih =>
    intro done hd ht s hs
    rw [calcGo] at hs
    refine ih _ ?_ (fun t htm => ht t (by simp [htm])) s hs
    intro t htm
    rcases List.mem_append.mp htm with h | h
    · exact hd t h
    · simp at h
      subst h
      obtain ⟨hx0, hx1⟩ := ht x (by simp)
      split
      · constructor
        · apply le_min (by norm_num)
          apply add_nonneg hx0
          apply mul_nonneg (by norm_num)
          positivity
        · exact min_le_left 1 _
      · exact ⟨hx0, hx1⟩

end SynopticCore

namespace CoreEngine

/-- Claim C6: forward chaining uses a single shared fact set within a
pass — splitting the rule list anywhere, the rules after the split run
on the fact/inferred sets already updated by the rules before it (unless
the goal stopped the pass) — and consequently Scenario C
(`facts = {"a"}`, rules `[a ⇒ b, b ⇒ c]`, no goal) returns
`reached = true`, `facts = {"a","b","c"}`, `inferred = {"b","c"}` in a
single forward pass. -/
theorem forward_chain_shared_facts :
    (∀ (hit : String → Bool) (pre post : List Rule) (facts inferred : Finset String)
        (applied : Bool),
      onePass hit (pre ++ post) facts inferred applied =
        (let p := onePass hit pre facts inferred applied
         if p.stopped then p else onePass hit post p.facts p.inferred p.applied)) ∧
    run [⟨["a"], "b"⟩, ⟨["b"], "c"⟩] {"a"} none = (true, {"a", "b", "c"}, {"b", "c"}) :=
  ⟨onePass_append, by decide⟩

/-- Claim C7 counterexample: with the empty string as goal the early-exit
check never fires (Python's `if goal and ...` is falsy), so even when a
rule's just-derived consequent equals the goal `""` the run keeps
processing the remaining rules: with rules `[∅ ⇒ "", "" ⇒ c]` and goal
`""`, the second rule still fires and `"c"` is derived, contradicting
"stops immediately ... without processing the remaining rules". -/
theorem empty_goal_no_early_exit :
    run [⟨[], ""⟩, ⟨[""], "c"⟩] ∅ (some "") = (true, {"", "c"}, {"", "c"}) ∧
    "c" ∈ (run [⟨[], ""⟩, ⟨[""], "c"⟩] ∅ (some "")).2.1 := by
  constructor <;> decide

/-- Claim C7 (amended): for every NON-EMPTY goal and at EVERY moment of
the run — pass `k + 1`, for any `k` such that each of the first `k`
passes applied a rule without stopping (exactly the condition under
which the loop reaches pass `k + 1`) — the moment a rule `r` fires with
its consequent equal to the goal, `run` returns `reached = true`
immediately: the rules after `r` are not processed (`post` is arbitrary
and absent from the result), the returned facts and inferred sets are
exactly those accumulated so far plus the goal, and the loop executes
exactly `k + 1` passes. -/
theorem run_goal_early_exit (pre post : List Rule) (r : Rule) (g : String)
    (initial_facts : Finset String) (k : Nat) (F I f' i' : Finset String) (a' : Bool)
    (hg : g ≠ "")
    (hprev : ∀ j, j < k →
      (onePass (goalHit (some g)) (pre ++ r :: post)
        (passState (goalHit (some g)) (pre ++ r :: post) j initial_facts ∅).1
        (passState (goalHit (some g)) (pre ++ r :: post) j initial_facts ∅).2 false).applied
          = true ∧
      (onePass (goalHit (some g)) (pre ++ r :: post)
        (passState (goalHit (some g)) (pre ++ r :: post) j initial_facts ∅).1
        (passState (goalHit (some g)) (pre ++ r :: post) j initial_facts ∅).2 false).stopped
          = false)
    (hstate : passState (goalHit (some g)) (pre ++ r :: post) k initial_facts ∅ = (F, I))
    (hpre : onePass (goalHit (some g)) pre F I false = ⟨f', i', a', false⟩)
    (hnotin : g ∉ f')
    (hcons : r.consequent = g)
    (hant : ∀ a ∈ r.antecedents, a ∈ f') :
    run (pre ++ r :: post) initial_facts (some g) = (true, insert g f', insert g i') ∧
    runPassCount (pre ++ r :: post) initial_facts (some g) = k + 1 := by
  have hc1 : ¬ (r.consequent ∈ f') := by rw [hcons]; exact hnotin
  have hc2 : r.antecedents.all (fun a => decide (a ∈ f')) = true := by
    rw [List.all_eq_true]
    intro a ha
    exact decide_eq_true (hant a ha)
  have hc3 : goalHit (some g) r.consequent = true := by
    simp [goalHit, hcons, hg]
  have hfull : onePass (goalHit (some g)) (pre ++ r :: post) F I false =
      ⟨insert g f', insert g i', true, true⟩ := by
    rw [onePass_append, hpre]
    show onePass (goalHit (some g)) (r :: post) f' i' a' = _
    rw [onePass, if_neg hc1, if_pos hc2, if_pos hc3, hcons]
  have hatk : onePass (goalHit (some g)) (pre ++ r :: post)
      (passState (goalHit (some g)) (pre ++ r :: post) k initial_facts ∅).1
      (passState (goalHit (some g)) (pre ++ r :: post) k initial_facts ∅).2 false =
      ⟨insert g f', insert g i', true, true⟩ := by
    rw [hstate]
    exact hfull
  have hk : k < runFuel (pre ++ r :: post) := by
    have hcard := passState_card (goalHit (some g)) (pre ++ r :: post) k initial_facts ∅
      (fun j hj => (hprev j hj).1)
    have hle := Finset.card_le_card
      (Finset.sdiff_subset (s := consequentsOf (pre ++ r :: post)) (t := initial_facts))
    unfold runFuel
    omega
  have hloop := runLoopF_stops_at (goalHit (some g)) (pre ++ r :: post) k
    (runFuel (pre ++ r :: post)) initial_facts ∅ hk hprev (by rw [hatk])
  rw [hatk] at hloop
  constructor
  · unfold run
    rw [hloop]
    simp
  · unfold runPassCount
    rw [hloop]

/-- Witness for `run_goal_early_exit`, at two concrete moments.
First pass (k = 0): Scenario D — facts `{"a"}`, rules `[a ⇒ b, b ⇒ c]`,
goal `"b"` — returns `reached = true` right after deriving `"b"`, with
`"c"` not derived.  Second pass (k = 1): facts `{"a"}`, rules
`[b ⇒ g, a ⇒ b]`, goal `"g"` — pass 1 derives `"b"`, pass 2 fires
`b ⇒ g` and the run stops there with exactly 2 passes. -/
theorem run_goal_early_exit_witness :
    (run [⟨["a"], "b"⟩, ⟨["b"], "c"⟩] {"a"} (some "b") = (true, {"a", "b"}, {"b"}) ∧
     "c" ∉ (run [⟨["a"], "b"⟩, ⟨["b"], "c"⟩] {"a"} (some "b")).2.1) ∧
    (run [⟨["b"], "g"⟩, ⟨["a"], "b"⟩] {"a"} (some "g") = (true, {"a", "b", "g"}, {"b", "g"}) ∧
     runPassCount [⟨["b"], "g"⟩, ⟨["a"], "b"⟩] {"a"} (some "g") = 2) := by
  refine ⟨⟨?_, by decide⟩, ?_, ?_⟩
  · have h := run_goal_early_exit [] [⟨["b"], "c"⟩] ⟨["a"], "b"⟩ "b" {"a"} 0 {"a"} ∅ {"a"} ∅
      false (by decide) (fun j hj => absurd hj (by omega)) rfl rfl (by decide) rfl (by decide)
    have h1 := h.1
    rw [show (insert "b" {"a"} : Finset String) = {"a", "b"} from by decide,
      show (insert "b" (∅ : Finset String)) = {"b"} from by decide] at h1
    simpa using h1
  · have h := run_goal_early_exit [] [⟨["a"], "b"⟩] ⟨["b"], "g"⟩ "g" {"a"} 1
      {"a", "b"} {"b"} {"a", "b"} {"b"} false (by decide)
      (by
        intro j hj
        have hj0 : j = 0 := Nat.lt_one_iff.mp hj
        subst hj0
        exact ⟨by decide, by decide⟩)
      (by decide) (by decide) (by decide) rfl (by decide)
    have h1 := h.1
    rw [show (insert "g" ({"a", "b"} : Finset String)) = {"a", "b", "g"} from by decide,
      show (insert "g" ({"b"} : Finset String)) = {"b", "g"} from by decide] at h1
    simpa using h1
  · have h := run_goal_early_exit [] [⟨["a"], "b"⟩] ⟨["b"], "g"⟩ "g" {"a"} 1
      {"a", "b"} {"b"} {"a", "b"} {"b"} false (by decide)
      (by
        intro j hj
        have hj0 : j = 0 := Nat.lt_one_iff.mp hj
        subst hj0
        exact ⟨by decide, by decide⟩)
      (by decide) (by decide) (by decide) rfl (by decide)
    simpa using h.2

/-- Claim C8 counterexample: with rules listed in reverse dependency
order (`[b ⇒ c, a ⇒ b]`) and facts `{"a"}`, the loop executes 3 full
passes over the 2-rule list (two progressing passes plus the final
fixpoint-detecting pass), exceeding the claimed bound of `|rules|`
passes. -/
theorem pass_count_exceeds_rule_count :
    runPassCount [⟨["b"], "c"⟩, ⟨["a"], "b"⟩] {"a"} none = 3 ∧
    ([⟨["b"], "c"⟩, ⟨["a"], "b"⟩] : List Rule).length = 2 := by
  constructor <;> decide

/-- Claim C8 (amended): for every finite rule list, initial fact set and
goal, `run` terminates (the loop's fuel bound is never reached), facts
are only ever added, and at most `|rules| + 1` passes over the rule list
are executed: each pass that makes progress adds at least one new
consequent, of which there are at most `|rules|`, plus one final pass
that detects the fixpoint. -/
theorem run_terminates_pass_bound :
    ∀ (rules : List Rule) (initial_facts : Finset String) (goal : Option String),
      runFuelOut rules initial_facts goal = false ∧
      initial_facts ⊆ (run rules initial_facts goal).2.1 ∧
      runPassCount rules initial_facts goal ≤ rules.length + 1 := by
  intro rules facts goal
  have hcard : (consequentsOf rules \ facts).card < runFuel rules := by
    have h1 := Finset.card_le_card (Finset.sdiff_subset (s := consequentsOf rules) (t := facts))
    unfold runFuel
    omega
  obtain ⟨h1, h2, h3⟩ := runLoopF_spec (goalHit goal) rules (runFuel rules) facts ∅ hcard
  refine ⟨h1, h2, ?_⟩
  have h4 : (consequentsOf rules).card ≤ rules.length := by
    unfold consequentsOf
    exact (List.toFinset_card_le _).trans (le_of_eq (List.length_map _ _))
  have h5 : (consequentsOf rules \ facts).card ≤ (consequentsOf rules).card :=
    Finset.card_le_card Finset.sdiff_subset
  unfold runPassCount
  omega

/-- Claim C10: calling `run` with the empty string as goal behaves
exactly like calling it with no goal — the truthiness test `if goal`
fails for `""`, so the early-exit check never fires, the full closure is
computed, and the returned flag is `true` regardless of the final fact
set. -/
theorem run_empty_goal_like_none :
    ∀ (rules : List Rule) (initial_facts : Finset String),
      run rules initial_facts (some "") = run rules initial_facts none ∧
      (run rules initial_facts (some "")).1 = true := by
  intro rules facts
  have hgh : goalHit (some "") = goalHit none := by
    funext c
    simp [goalHit]
  constructor
  · unfold run
    rw [hgh]
    simp
  · unfold run
    simp

end CoreEngine

namespace SynopticCore

theorem mkLogicStatement_proj (s p o t : String) (c : ℚ) (md : List (String × MetaVal))
    (st : LogicStatement) (h : mkLogicStatement s p o t c md = some st) :
    st.subject = s ∧ st.predicate = p ∧ st.object = o ∧ st.statement_type = t ∧
    st.confidence = c ∧ st.metadata = md := by
  unfold mkLogicStatement at h
  by_cases h1 : 0 ≤ c ∧ c ≤ 1
  · rw [if_neg (not_not_intro h1)] at h
    by_cases h2 : s = "" ∨ p = "" ∨ o = ""
    · rw [if_pos h2] at h
      exact absurd h (by simp)
    · rw [if_neg h2] at h
      rw [Option.some_inj] at h
      subst h
      exact ⟨rfl, rfl, rfl, rfl, rfl, rfl⟩
  · rw [if_pos h1] at h
    exact absurd h (by simp)

/-- Claim C1 counterexample: for a regex match with exactly one capture
group, `_create_statement_from_match` takes `groups[0]` — the GROUP's
text — as the subject, not the whole matched text: for the pattern
`a(b)` matched against `"ab"` (whole match `"ab"`, group 1 `"b"`), the
emitted statement's subject is `"b"`, contradicting the claim's "subject
is the whole matched text". -/
theorem one_group_subject_is_group_text :
    ((compileRegex "a(b)").map (fun p => reMatches p.1 p.2 "ab")).getD [] = [cexMatch] ∧
    cexMatch.fullText = "ab" ∧
    (create_statement_from_match cexRule cexMatch).map LogicStatement.subject = some "b" ∧
    (create_statement_from_match cexRule cexMatch).map LogicStatement.subject ≠ some "ab" := by
  refine ⟨?_, ?_, ?_, ?_⟩ <;> with_unfolding_all decide

/-- Claim C1 (amended): for every regex rule and match, when the
statement is emitted its subject and object are: with zero capture
groups, the whole matched text and the action's configured object
(default `"pattern"`); with exactly one group, the GROUP's text (not the
whole match) and the action's configured object; with two or more
groups, group 1's text and group 2's text. -/
theorem create_statement_from_match_cases (rule : Rule) (m : ReMatch) :
    (m.groups = [] → ∀ st, create_statement_from_match rule m = some st →
      st.subject = m.fullText ∧ st.object = actionGet rule.action "object" "pattern") ∧
    (∀ g, m.groups = [some g] → ∀ st, create_statement_from_match rule m = some st →
      st.subject = g ∧ st.object = actionGet rule.action "object" "pattern") ∧
    (∀ g1 g2 grest, m.groups = some g1 :: some g2 :: grest →
      ∀ st, create_statement_from_match rule m = some st →
      st.subject = g1 ∧ st.object = g2) := by
  obtain ⟨ft, gs, sp⟩ := m
  refine ⟨?_, ?_, ?_⟩
  · intro h0 st hst
    simp only at h0
    subst h0
    have hst' : mkLogicStatement ft (actionGet rule.action "predicate" "matches")
        (actionGet rule.action "object" "pattern")
        (actionGet rule.action "statement_type" "extraction") (7 / 10)
        [("rule", .s rule.name), ("match_position", .n sp), ("match_text", .s ft)] =
          some st := hst
    obtain ⟨hs, _, ho, _⟩ := mkLogicStatement_proj _ _ _ _ _ _ st hst'
    exact ⟨hs, ho⟩
  · intro g h1 st hst
    simp only at h1
    subst h1
    have hst' : mkLogicStatement g (actionGet rule.action "predicate" "matches")
        (actionGet rule.action "object" "pattern")
        (actionGet rule.action "statement_type" "extraction") (7 / 10)
        [("rule", .s rule.name), ("match_position", .n sp), ("match_text", .s ft)] =
          some st := hst
    obtain ⟨hs, _, ho, _⟩ := mkLogicStatement_proj _ _ _ _ _ _ st hst'
    exact ⟨hs, ho⟩
  · intro g1 g2 grest h2 st hst
    simp only at h2
    subst h2
    unfold create_statement_from_match at hst
    have hl : (some g1 :: some g2 :: grest).length > 1 := by simp
    rw [if_pos hl] at hst
    simp only [List.getD_cons_succ, List.getD_cons_zero] at hst
    obtain ⟨hs, _, ho, _⟩ := mkLogicStatement_proj _ _ _ _ _ _ st hst
    exact ⟨hs, ho⟩

/-- Witness for `create_statement_from_match_cases`: at the concrete
one-group match `cexMatch` of rule `cexRule`, the emitted statement has
subject `"b"` (the group) and object `"pattern"` (the action default). -/
theorem create_statement_from_match_cases_witness :
    cexStmt.subject = "b" ∧ cexStmt.object = actionGet cexRule.action "object" "pattern" := by
  have hst : create_statement_from_match cexRule cexMatch = some cexStmt := by
    with_unfolding_all rfl
  exact (create_statement_from_match_cases cexRule cexMatch).2.1 "b" rfl cexStmt hst

/-- Claim C2 counterexample: on tokens
`["The", "cat", "is", "a", "mammal"]` with the built-in rules, no
returned statement with triple `(cat, is_a, mammal)` has final
confidence 0.7 — the confidence-reinforcement pass has boosted it. -/
theorem scenario_a_confidence_not_07 :
    ¬ ∃ s ∈ apply_rules_nocache builtin_rules tokensA,
        stmtKey s = ("cat", "is_a", "mammal") ∧ s.confidence = 7 / 10 := by
  with_unfolding_all decide

/-- Claim C2 (amended): Scenario A produces exactly two statements —
`(cat, is_a, mammal)` and `(cat, acts_on, is)` (the built-in
`action_object` rule also matches `"cat is a"`) — and each has final
confidence 0.75: the fixed regex confidence 0.7 plus one 0.05 boost for
the other surviving statement sharing the subject `"cat"`. -/
theorem scenario_a_amended :
    apply_rules_nocache builtin_rules tokensA = [stmtIsA, stmtActsOn] ∧
    stmtIsA.subject = "cat" ∧ stmtIsA.predicate = "is_a" ∧ stmtIsA.object = "mammal" ∧
    stmtIsA.confidence = 7 / 10 + 5 / 100 := by
  refine ⟨?_, ?_, ?_, ?_, ?_⟩ <;> with_unfolding_all decide

/-- Claim C3: deduplication groups statements by the
`(subject, predicate, object)` triple and keeps, per key, exactly the
first-seen statement of strictly highest confidence (`specFirstMax`
models the spec's words); in particular, of two `(cat, is_a, mammal)`
statements with confidences 0.7 and 0.9, only the 0.9 one survives, in
either order. -/
theorem merge_duplicates_keeps_first_max :
    (∀ (l : List LogicStatement) (k : String × String × String),
      (merge_duplicate_statements l).filter (fun s => decide (stmtKey s = k)) =
        (specFirstMax (l.filter (fun s => decide (stmtKey s = k)))).toList) ∧
    merge_duplicate_statements [catS7, catS9] = [catS9] ∧
    merge_duplicate_statements [catS9, catS7] = [catS9] := by
  refine ⟨?_, ?_, ?_⟩
  · intro l k
    obtain ⟨hKM, hND, hF⟩ := mergeFold_invariant l
    unfold merge_duplicate_statements
    rw [map_snd_filter_eq_dictFind _ k hKM hND, hF k]
  · with_unfolding_all decide
  · with_unfolding_all decide

/-- Claim C4: confidence lies in `[0, 1]` at all times — construction
(`LogicStatement.__post_init__`) fails outside the bounds, and the
reinforcement pass (`+0.05` per other surviving statement sharing the
subject or the object, clamped at 1.0) preserves them. -/
theorem confidence_bounds_invariant :
    (∀ (subject predicate object statement_type : String) (confidence : ℚ)
        (metadata : List (String × MetaVal)) (st : LogicStatement),
      mkLogicStatement subject predicate object statement_type confidence metadata = some st →
      0 ≤ st.confidence ∧ st.confidence ≤ 1) ∧
    (∀ l : List LogicStatement,
      (∀ s ∈ l, 0 ≤ s.confidence ∧ s.confidence ≤ 1) →
      ∀ s ∈ calculate_confidence_scores l, 0 ≤ s.confidence ∧ s.confidence ≤ 1) := by
  constructor
  · intro s p o t c md st h
    have hb : 0 ≤ c ∧ c ≤ 1 := by
      by_contra hc
      unfold mkLogicStatement at h
      rw [if_pos hc] at h
      exact absurd h (by simp)
    have hc := (mkLogicStatement_proj s p o t c md st h).2.2.2.2.1
    rw [hc]
    exact hb
  · intro l hl
    exact calcGo_bounds l [] (by simp) hl

/-- Witness for `confidence_bounds_invariant`: at the concrete
statements of Scenario E, construction and reinforcement both keep the
confidence within `[0, 1]`. -/
theorem confidence_bounds_invariant_witness :
    (0 ≤ catS7.confidence ∧ catS7.confidence ≤ 1) ∧
    (0 ≤ catS9.confidence ∧ catS9.confidence ≤ 1) := by
  constructor
  · exact confidence_bounds_invariant.1 "cat" "is_a" "mammal" "classification" (7 / 10) []
      catS7 (by with_unfolding_all rfl)
  · exact confidence_bounds_invariant.2 [catS9] (by with_unfolding_all decide) catS9
      (by with_unfolding_all decide)

/-- Claim C5 (code bug): with caching enabled — the constructor default —
`apply_rules` cannot run at all: `lru_cache` keys on
`(rule, parsed_data)` and `ParsedData` is an `eq=True` dataclass whose
`__hash__` is `None`, so the first cache lookup raises
`TypeError: unhashable type`, both with the built-in rule set and with
explicit custom rules; no statement set is produced, and the engine's
own tests (which call `apply_rules` on a default engine) fail the same
way. -/
theorem apply_rules_default_caching_type_error :
    apply_rules true none tokensA = .error "TypeError: unhashable type: ParsedData" ∧
    apply_rules true (some builtin_rules) tokensA =
      .error "TypeError: unhashable type: ParsedData" := by
  constructor <;> rfl

/-- Claim C9: constructing a `Rule` succeeds exactly when the rule type
is one of the four variants, a regex rule's pattern compiles, and the
priority lies in `[0, 100]`; constructing a `LogicStatement` succeeds
exactly when the confidence lies in `[0, 1]` and subject, predicate and
object are non-empty.  Each violation is a `ValueError` at construction
time.  The rule part holds for EVERY compilability test `compiles` —
the source delegates that test to the external `re.compile`, so
instantiating `compiles` with `re.compile`'s acceptance predicate gives
the program's construction behaviour on all patterns, and instantiating
it with the executable subset model `re_compiles` (as `mkRule` does)
gives the concrete cases of the witness. -/
theorem construction_validation :
    (∀ (compiles : String → Bool) (name pattern rule_type : String)
        (action : List (String × String)) (description : String) (priority : Int)
        (enabled : Bool),
      (∃ r, mkRuleWith compiles name pattern rule_type action description priority enabled =
          .ok r) ↔
        ((rule_type = "regex" ∨ rule_type = "token" ∨ rule_type = "sequence" ∨
            rule_type = "custom") ∧
         (rule_type = "regex" → compiles pattern = true) ∧
         0 ≤ priority ∧ priority ≤ 100)) ∧
    (∀ (subject predicate object statement_type : String) (confidence : ℚ)
        (metadata : List (String × MetaVal)),
      (∃ st, mkLogicStatement subject predicate object statement_type confidence metadata =
          some st) ↔
        (0 ≤ confidence ∧ confidence ≤ 1 ∧ subject ≠ "" ∧ predicate ≠ "" ∧ object ≠ "")) := by
  constructor
  · intro compiles nm pat rt act descr prio en
    unfold mkRuleWith
    by_cases h1 : rt = "regex" ∨ rt = "token" ∨ rt = "sequence" ∨ rt = "custom"
    · rw [if_neg (not_not_intro h1)]
      by_cases h2 : rt = "regex" ∧ compiles pat = false
      · rw [if_pos h2]
        constructor
        · rintro ⟨r, hr⟩
          exact absurd hr (by simp)
        · rintro ⟨_, hre, _⟩
          have ht := hre h2.1
          rw [ht] at h2
          exact absurd h2.2 (by simp)
      · rw [if_neg h2]
        by_cases h3 : 0 ≤ prio ∧ prio ≤ 100
        · rw [if_neg (not_not_intro h3)]
          constructor
          · intro _
            refine ⟨h1, ?_, h3.1, h3.2⟩
            intro hre
            by_cases hcp : compiles pat = true
            · exact hcp
            · have hcf : compiles pat = false := by simpa using hcp
              exact absurd ⟨hre, hcf⟩ h2
          · intro _
            exact ⟨_, rfl⟩
        · rw [if_pos h3]
          constructor
          · rintro ⟨r, hr⟩
            exact absurd hr (by simp)
          · rintro ⟨_, _, hp1, hp2⟩
            exact absurd ⟨hp1, hp2⟩ h3
    · rw [if_pos h1]
      constructor
      · rintro ⟨r, hr⟩
        exact absurd hr (by simp)
      · rintro ⟨hd, _⟩
        exact absurd hd h1
  · intro s p o t c md
    unfold mkLogicStatement
    by_cases h1 : 0 ≤ c ∧ c ≤ 1
    · rw [if_neg (not_not_intro h1)]
      by_cases h2 : s = "" ∨ p = "" ∨ o = ""
      · rw [if_pos h2]
        constructor
        · rintro ⟨st, hst⟩
          exact absurd hst (by simp)
        · rintro ⟨_, _, hs, hp, ho⟩
          rcases h2 with h | h | h
          · exact absurd h hs
          · exact absurd h hp
          · exact absurd h ho
      · rw [if_neg h2]
        push_neg at h2
        constructor
        · intro _
          exact ⟨h1.1, h1.2, h2.1, h2.2.1, h2.2.2⟩
        · intro _
          exact ⟨_, rfl⟩
    · rw [if_pos h1]
      constructor
      · rintro ⟨st, hst⟩
        exact absurd hst (by simp)
      · rintro ⟨hc1, hc2, _⟩
        exact absurd ⟨hc1, hc2⟩ h1

/-- Witness for `construction_validation`: the first built-in rule
constructs; an unbalanced-parenthesis pattern, an unknown rule type and
an out-of-range priority are rejected; a valid statement constructs; an
out-of-range confidence and an empty subject are rejected. -/
theorem construction_validation_witness :
    (∃ r, mkRule "is_a_relation" "(\\w+)\\s+is\\s+(?:a|an)\\s+(\\w+)" "regex"
        [("predicate", "is_a"), ("statement_type", "classification")]
        "Detects 'X is a Y' relationships" 50 true = .ok r) ∧
    (¬ ∃ r, mkRule "bad" "(" "regex" [] "" 50 true = .ok r) ∧
    (¬ ∃ r, mkRule "bad" "x" "frobnicate" [] "" 50 true = .ok r) ∧
    (¬ ∃ r, mkRule "bad" "x" "token" [] "" 101 true = .ok r) ∧
    (∃ st, mkLogicStatement "cat" "is_a" "mammal" "classification" (7 / 10) [] = some st) ∧
    (¬ ∃ st, mkLogicStatement "cat" "is_a" "mammal" "classification" (3 / 2) [] = some st) ∧
    (¬ ∃ st, mkLogicStatement "" "is_a" "mammal" "classification" (7 / 10) [] = some st) := by
  refine ⟨?_, ?_, ?_, ?_, ?_, ?_, ?_⟩
  · exact (construction_validation.1 re_compiles _ _ _ _ _ _ _).mpr (by with_unfolding_all decide)
  · intro h
    exact absurd ((construction_validation.1 re_compiles _ _ _ _ _ _ _).mp h)
      (by with_unfolding_all decide)
  · intro h
    exact absurd ((construction_validation.1 re_compiles _ _ _ _ _ _ _).mp h)
      (by with_unfolding_all decide)
  · intro h
    exact absurd ((construction_validation.1 re_compiles _ _ _ _ _ _ _).mp h)
      (by with_unfolding_all decide)
  · exact (construction_validation.2 _ _ _ _ _ _).mpr (by with_unfolding_all decide)
  · intro h
    exact absurd ((construction_validation.2 _ _ _ _ _ _).mp h) (by with_unfolding_all decide)
  · intro h
    exact absurd ((construction_validation.2 _ _ _ _ _ _).mp h) (by with_unfolding_all decide)

end SynopticCore
